import Mathlib

/-!
Verification of the vpsearch Vantage-Point tree library.

The repository ships the public C header (src/vp.h) together with usage
examples; the algorithm bodies (vp.c / lib.rs) are not part of the
source snapshot, so the tree construction and the branch-and-bound query
are modelled from the specification (spec.md sections 3 and 4), while the
interface shape (signatures of vp_init / vp_find_nearest and the distance
callback) follows src/vp.h.  Distances are kept abstract in a linearly
ordered additive commutative group, which covers both the integers used
for concrete test inputs and the real numbers of the specification.
-/

set_option linter.unusedSectionVars false

namespace VP

variable {D : Type} [LinearOrderedAddCommGroup D]

/-- Ordering on candidate (index, distance) pairs: ascending by distance,
ties broken by ascending item index (spec section 3, ResultSet). -/
def lexLe (p q : ℕ × D) : Prop :=
  p.2 < q.2 ∨ (p.2 = q.2 ∧ p.1 ≤ q.1)

instance : DecidableRel (α := ℕ × D) lexLe := fun p q => by
  unfold lexLe; exact inferInstance

theorem lexLe_refl (p : ℕ × D) : lexLe p p := Or.inr ⟨rfl, le_refl _⟩

theorem lexLe_total (p q : ℕ × D) : lexLe p q ∨ lexLe q p := by
  rcases lt_trichotomy p.2 q.2 with h | h | h
  · exact Or.inl (Or.inl h)
  · rcases le_total p.1 q.1 with h1 | h1
    · exact Or.inl (Or.inr ⟨h, h1⟩)
    · exact Or.inr (Or.inr ⟨h.symm, h1⟩)
  · exact Or.inr (Or.inl h)

theorem lexLe_trans {p q r : ℕ × D} (h1 : lexLe p q) (h2 : lexLe q r) : lexLe p r := by
  rcases h1 with h1 | ⟨h1, h1i⟩
  · rcases h2 with h2 | ⟨h2, _⟩
    · exact Or.inl (h1.trans h2)
    · exact Or.inl (h2 ▸ h1)
  · rcases h2 with h2 | ⟨h2, h2i⟩
    · exact Or.inl (h1 ▸ h2)
    · exact Or.inr ⟨h1.trans h2, h1i.trans h2i⟩

theorem lexLe_antisymm {p q : ℕ × D} (h1 : lexLe p q) (h2 : lexLe q p) : p = q := by
  rcases h1 with h1 | ⟨h1, h1i⟩
  · rcases h2 with h2 | ⟨h2, _⟩
    · exact absurd (h1.trans h2) (lt_irrefl _)
    · exact absurd h1 (h2 ▸ lt_irrefl _)
  · rcases h2 with h2 | ⟨h2, h2i⟩
    · exact absurd h2 (h1 ▸ lt_irrefl _)
    · exact Prod.ext (le_antisymm h1i h2i) h1

instance : IsTotal (ℕ × D) lexLe := ⟨lexLe_total⟩

instance : IsTrans (ℕ × D) lexLe := ⟨fun _ _ _ => lexLe_trans⟩

instance : IsAntisymm (ℕ × D) lexLe := ⟨fun _ _ => lexLe_antisymm⟩

instance : IsRefl (ℕ × D) lexLe := ⟨lexLe_refl⟩

theorem lexLe_snd_le {p q : ℕ × D} (h : lexLe p q) : p.2 ≤ q.2 := by
  rcases h with h | ⟨h, _⟩
  · exact h.le
  · exact h.le

theorem not_lexLe_of_snd_lt {p q : ℕ × D} (h : q.2 < p.2) : ¬ lexLe p q := by
  intro hc
  exact absurd (lexLe_snd_le hc) (not_le.mpr h)

/-- Candidate pairs sorted ascending by distance, ties by ascending index. -/
def sortPairs (l : List (ℕ × D)) : List (ℕ × D) :=
  List.insertionSort lexLe l

/-- The k lexicographically smallest candidates of a list: the contents of a
ResultSet of capacity k after all of the list has been offered to it. -/
def selK (k : ℕ) (l : List (ℕ × D)) : List (ℕ × D) :=
  (sortPairs l).take k

/-- ResultSet insertion: place the new candidate in distance order and evict
beyond capacity k (spec section 3, ResultSet invariant). -/
def insertRS (k : ℕ) (p : ℕ × D) (rs : List (ℕ × D)) : List (ℕ × D) :=
  (List.orderedInsert lexLe p rs).take k

theorem sortPairs_perm {l l2 : List (ℕ × D)} (h : l.Perm l2) : sortPairs l = sortPairs l2 :=
  List.eq_of_perm_of_sorted
    ((List.perm_insertionSort _ _).trans (h.trans (List.perm_insertionSort _ _).symm))
    (List.sorted_insertionSort _ _) (List.sorted_insertionSort _ _)

theorem selK_perm (k : ℕ) {l l2 : List (ℕ × D)} (h : l.Perm l2) : selK k l = selK k l2 := by
  unfold selK
  rw [sortPairs_perm h]

theorem take_orderedInsert (x : ℕ × D) :
    ∀ (l : List (ℕ × D)) (k : ℕ),
      (List.orderedInsert lexLe x (l.take k)).take k = (List.orderedInsert lexLe x l).take k := by
  intro l
  induction l with
  | nil => intro k; simp
  | cons y t ih =>
    intro k
    cases k with
    | zero => simp
    | succ k =>
      by_cases h : lexLe x y
      · simp only [List.take_succ_cons, List.orderedInsert, if_pos h]
        cases k with
        | zero => simp
        | succ k =>
          simp only [List.take_succ_cons, List.take_take]
          rw [min_eq_left (Nat.le_succ k)]
      · simp only [List.take_succ_cons, List.orderedInsert, if_neg h]
        rw [ih k]

theorem insertRS_selK (k : ℕ) (p : ℕ × D) (zs : List (ℕ × D)) :
    insertRS k p (selK k zs) = selK k (p :: zs) := by
  unfold insertRS selK sortPairs
  rw [take_orderedInsert]
  rfl

theorem foldl_insertRS (k : ℕ) :
    ∀ (ps zs : List (ℕ × D)),
      ps.foldl (fun r p => insertRS k p r) (selK k zs) = selK k (ps ++ zs) := by
  intro ps
  induction ps with
  | nil => intro zs; rfl
  | cons p t ih =>
    intro zs
    have h1 : List.foldl (fun r q => insertRS k q r) (selK k (p :: zs)) t = selK k (t ++ p :: zs) :=
      ih (p :: zs)
    calc List.foldl (fun r q => insertRS k q r) (selK k zs) (p :: t)
        = List.foldl (fun r q => insertRS k q r) (insertRS k p (selK k zs)) t := rfl
      _ = List.foldl (fun r q => insertRS k q r) (selK k (p :: zs)) t := by
            rw [insertRS_selK]
      _ = selK k (t ++ p :: zs) := h1
      _ = selK k (p :: t ++ zs) := selK_perm k List.perm_middle

theorem length_sortPairs (l : List (ℕ × D)) : (sortPairs l).length = l.length :=
  (List.perm_insertionSort _ _).length_eq

theorem length_selK (k : ℕ) (l : List (ℕ × D)) : (selK k l).length = min k l.length := by
  unfold selK
  rw [List.length_take, length_sortPairs]

theorem sorted_selK (k : ℕ) (l : List (ℕ × D)) : List.Sorted lexLe (selK k l) :=
  (List.sorted_insertionSort _ _).sublist (List.take_sublist _ _)

theorem mem_of_mem_selK {k : ℕ} {l : List (ℕ × D)} {p : ℕ × D} (h : p ∈ selK k l) : p ∈ l :=
  (List.perm_insertionSort lexLe l).subset (List.take_subset _ _ h)

theorem sorted_getLast_max {l : List (ℕ × D)} (hs : List.Sorted lexLe l) {a p : ℕ × D}
    (hl : l.getLast? = some a) (hp : p ∈ l) : lexLe p a := by
  induction l with
  | nil => cases hp
  | cons y t ih =>
    cases t with
    | nil =>
      have hya : y = a := by
        simpa using hl
      have hpy : p = y := by
        simpa using hp
      rw [hpy, hya]
      exact lexLe_refl a
    | cons z t2 =>
      rw [List.getLast?_cons_cons] at hl
      rcases List.mem_cons.mp hp with rfl | hp2
      · exact (List.sorted_cons.mp hs).1 a (List.mem_of_mem_getLast? hl)
      · exact ih (List.sorted_cons.mp hs).2 hl hp2

theorem take_orderedInsert_of_gt {p : ℕ × D} :
    ∀ (s : List (ℕ × D)) (k : ℕ), k ≤ s.length →
      (∀ e ∈ s.take k, e.2 < p.2) →
      (List.orderedInsert lexLe p s).take k = s.take k := by
  intro s
  induction s with
  | nil =>
    intro k hk _
    have : k = 0 := Nat.le_zero.mp hk
    subst this
    rfl
  | cons y t ih =>
    intro k hk he
    cases k with
    | zero => simp
    | succ k =>
      have hy : y.2 < p.2 := he y (by simp)
      have hnot : ¬ lexLe p y := not_lexLe_of_snd_lt hy
      simp only [List.orderedInsert, if_neg hnot, List.take_succ_cons]
      rw [ih k (Nat.succ_le_succ_iff.mp (by simpa using hk))
        (fun e hee => he e (by rw [List.take_succ_cons]; exact List.mem_cons_of_mem _ hee))]

theorem selK_append_absorb (k : ℕ) {zs : List (ℕ × D)} (hk : k ≤ zs.length) :
    ∀ (ps : List (ℕ × D)), (∀ p ∈ ps, ∀ e ∈ selK k zs, e.2 < p.2) →
      selK k (ps ++ zs) = selK k zs := by
  intro ps
  induction ps with
  | nil => intro _; rfl
  | cons p t ih =>
    intro hp
    have h1 : selK k (t ++ zs) = selK k zs :=
      ih (fun x hx e he => hp x (List.mem_cons_of_mem _ hx) e he)
    have hlen : k ≤ (sortPairs (t ++ zs)).length := by
      rw [length_sortPairs, List.length_append]
      omega
    have hel : ∀ e ∈ (sortPairs (t ++ zs)).take k, e.2 < p.2 := by
      intro e he
      have hmem : e ∈ selK k zs := by
        rw [← h1]
        exact he
      exact hp p (List.mem_cons_self _ _) e hmem
    calc selK k ((p :: t) ++ zs)
        = (List.orderedInsert lexLe p (sortPairs (t ++ zs))).take k := rfl
      _ = (sortPairs (t ++ zs)).take k := take_orderedInsert_of_gt _ _ hlen hel
      _ = selK k zs := h1

/-- The pruning radius tau: the distance of the worst kept candidate once the
ResultSet is full, and +infinity (encoded as none) while it is not
(spec section 4.2). -/
def tauOf (k : ℕ) (rs : List (ℕ × D)) : Option D :=
  if rs.length = k then rs.getLast?.map Prod.snd else none

theorem tauOf_eq_some {k : ℕ} {rs : List (ℕ × D)} {t : D} (h : tauOf k rs = some t) :
    rs.length = k ∧ ∃ a : ℕ × D, rs.getLast? = some a ∧ a.2 = t := by
  unfold tauOf at h
  by_cases hl : rs.length = k
  · rw [if_pos hl] at h
    cases ha : rs.getLast? with
    | none => rw [ha] at h; cases h
    | some a =>
      rw [ha] at h
      refine ⟨hl, a, rfl, ?_⟩
      cases h
      rfl
  · rw [if_neg hl] at h
    cases h

theorem selK_tau_bound {k : ℕ} {X : List (ℕ × D)} {t : D}
    (h : tauOf k (selK k X) = some t) :
    (∀ e ∈ selK k X, e.2 ≤ t) ∧ k ≤ X.length := by
  obtain ⟨hlen, a, ha, hat⟩ := tauOf_eq_some h
  constructor
  · intro e he
    exact hat ▸ lexLe_snd_le (sorted_getLast_max (sorted_selK k X) ha he)
  · rw [length_selK] at hlen
    exact min_eq_left_iff.mp hlen

/-- A vantage-point tree node (spec section 3): a leaf holding item indices, or
an internal node holding a vantage item index, a distance threshold, and the
near and far subtrees. -/
inductive VPNode (D : Type) : Type
  | leaf (idxs : List ℕ) : VPNode D
  | node (v : ℕ) (th : D) (near far : VPNode D) : VPNode D

/-- All item indices stored in a subtree (vantage indices included). -/
def indicesOf : VPNode D → List ℕ
  | .leaf idxs => idxs
  | .node v _ near far => v :: (indicesOf near ++ indicesOf far)

/-- Structural invariant of a built tree (spec section 3, Node): the near
subtree holds exactly the items within the threshold of the vantage, the far
subtree the rest. -/
def InvT (dd : ℕ → ℕ → D) : VPNode D → Prop
  | .leaf _ => True
  | .node v th near far =>
      (∀ x ∈ indicesOf near, dd v x ≤ th) ∧ (∀ x ∈ indicesOf far, th < dd v x) ∧
        InvT dd near ∧ InvT dd far

/-- Median of a list of distances, computed by selecting the middle element of
the sorted list (spec section 4.1 step 4). -/
def medianOf (ds : List D) : D :=
  (List.insertionSort (fun a b => a ≤ b) ds).getD ((ds.length - 1) / 2) 0

/-- Recursive tree construction (spec section 4.1), operating on a working
subset of item indices.  L is the leaf-size constant; sel is the pluggable
(seedable) vantage selection source, read as a position into the current
subset.  The fuel argument is a termination device only: callers always pass
at least the length of the index list, and each recursive call strictly
shrinks the subset. -/
def buildF (L : ℕ) (sel : List ℕ → ℕ) (dd : ℕ → ℕ → D) : ℕ → List ℕ → VPNode D
  | 0, l => .leaf l
  | fuel + 1, l =>
    if hL : l.length ≤ L then .leaf l
    else
      have hpos : 0 < l.length := by omega
      let p := sel l % l.length
      let v := l.get ⟨p, Nat.mod_lt _ hpos⟩
      let rest := l.eraseIdx p
      let th := medianOf (rest.map (dd v))
      .node v th
        (buildF L sel dd fuel (rest.filter fun x => decide (dd v x ≤ th)))
        (buildF L sel dd fuel (rest.filter fun x => ! decide (dd v x ≤ th)))

/-- TreeBuilder entry (spec section 4.1): build the tree from a list of item
indices. -/
def build (L : ℕ) (sel : List ℕ → ℕ) (dd : ℕ → ℕ → D) (l : List ℕ) : VPNode D :=
  buildF L sel dd l.length l

theorem get_cons_eraseIdx_perm :
    ∀ (l : List ℕ) (p : ℕ) (h : p < l.length), (l.get ⟨p, h⟩ :: l.eraseIdx p).Perm l := by
  intro l
  induction l with
  | nil => intro p h; cases h
  | cons x t ih =>
    intro p h
    cases p with
    | zero => exact List.Perm.refl _
    | succ p =>
      have hp : p < t.length := Nat.succ_lt_succ_iff.mp h
      have hstep : ((x :: t).get ⟨p + 1, h⟩ :: (x :: t).eraseIdx (p + 1))
          = t.get ⟨p, hp⟩ :: x :: t.eraseIdx p := rfl
      rw [hstep]
      exact (List.Perm.swap x _ _).trans ((ih p hp).cons x)

theorem buildF_perm (L : ℕ) (sel : List ℕ → ℕ) (dd : ℕ → ℕ → D) :
    ∀ (fuel : ℕ) (l : List ℕ), (indicesOf (buildF L sel dd fuel l)).Perm l := by
  intro fuel
  induction fuel with
  | zero => intro l; exact List.Perm.refl _
  | succ fuel ih =>
    intro l
    rw [buildF]
    by_cases hL : l.length ≤ L
    · rw [dif_pos hL]
      exact List.Perm.refl _
    · rw [dif_neg hL]
      have hpos : 0 < l.length := Nat.pos_of_ne_zero (by intro h0; exact hL (by omega))
      set p := sel l % l.length with hp
      set v := l.get ⟨p, Nat.mod_lt _ hpos⟩ with hv
      set rest := l.eraseIdx p with hrest
      set th := medianOf (rest.map (dd v)) with hth
      show (v :: (indicesOf (buildF L sel dd fuel (rest.filter fun x => decide (dd v x ≤ th))) ++
        indicesOf (buildF L sel dd fuel (rest.filter fun x => ! decide (dd v x ≤ th))))).Perm l
      have h1 : (indicesOf (buildF L sel dd fuel (rest.filter fun x => decide (dd v x ≤ th))) ++
          indicesOf (buildF L sel dd fuel (rest.filter fun x => ! decide (dd v x ≤ th)))).Perm rest :=
        ((ih _).append (ih _)).trans (List.filter_append_perm _ rest)
      exact (h1.cons v).trans (get_cons_eraseIdx_perm l p (Nat.mod_lt _ hpos))

theorem buildF_inv (L : ℕ) (sel : List ℕ → ℕ) (dd : ℕ → ℕ → D) :
    ∀ (fuel : ℕ) (l : List ℕ), InvT dd (buildF L sel dd fuel l) := by
  intro fuel
  induction fuel with
  | zero => intro l; trivial
  | succ fuel ih =>
    intro l
    rw [buildF]
    by_cases hL : l.length ≤ L
    · rw [dif_pos hL]
      trivial
    · rw [dif_neg hL]
      have hpos : 0 < l.length := Nat.pos_of_ne_zero (by intro h0; exact hL (by omega))
      set p := sel l % l.length with hp
      set v := l.get ⟨p, Nat.mod_lt _ hpos⟩ with hv
      set rest := l.eraseIdx p with hrest
      set th := medianOf (rest.map (dd v)) with hth
      refine ⟨?_, ?_, ih _, ih _⟩
      · intro x hx
        have hxf : x ∈ rest.filter fun y => decide (dd v y ≤ th) :=
          (buildF_perm L sel dd fuel _).subset hx
        have := List.of_mem_filter hxf
        exact of_decide_eq_true this
      · intro x hx
        have hxf : x ∈ rest.filter fun y => ! decide (dd v y ≤ th) :=
          (buildF_perm L sel dd fuel _).subset hx
        have hb := List.of_mem_filter hxf
        have : ¬ dd v x ≤ th := by
          intro hc
          rw [decide_eq_true hc] at hb
          cases hb
        exact lt_of_not_le this

theorem build_perm (L : ℕ) (sel : List ℕ → ℕ) (dd : ℕ → ℕ → D) (l : List ℕ) :
    (indicesOf (build L sel dd l)).Perm l :=
  buildF_perm L sel dd l.length l

theorem build_inv (L : ℕ) (sel : List ℕ → ℕ) (dd : ℕ → ℕ → D) (l : List ℕ) :
    InvT dd (build L sel dd l) :=
  buildF_inv L sel dd l.length l

/-- Visit condition for the near child as second branch: a near-subset item
could still be within tau of the query (spec section 4.2). -/
def visitNear (d th : D) : Option D → Bool
  | none => true
  | some t => decide (d - t ≤ th)

/-- Visit condition for the far child as second branch: a far-subset item
could still be within tau of the query (spec section 4.2). -/
def visitFar (d th : D) : Option D → Bool
  | none => true
  | some t => decide (th ≤ d + t)

theorem visitFar_eq_false {d th : D} {tau : Option D} (h : visitFar d th tau = false) :
    ∃ t, tau = some t ∧ d + t < th := by
  cases tau with
  | none => cases h
  | some t =>
    refine ⟨t, rfl, ?_⟩
    by_cases hc : th ≤ d + t
    · rw [visitFar, decide_eq_true hc] at h
      cases h
    · exact lt_of_not_le hc

theorem visitNear_eq_false {d th : D} {tau : Option D} (h : visitNear d th tau = false) :
    ∃ t, tau = some t ∧ th < d - t := by
  cases tau with
  | none => cases h
  | some t =>
    refine ⟨t, rfl, ?_⟩
    by_cases hc : d - t ≤ th
    · rw [visitNear, decide_eq_true hc] at h
      cases h
    · exact lt_of_not_le hc

/-- Branch-and-bound depth-first traversal (spec section 4.2).  dq i is the
distance from the needle to item i.  At a leaf every held item is offered to
the ResultSet; at an internal node the vantage is offered, the branch the
query is inside is visited first, and the other branch is visited only if its
triangle-inequality pruning condition allows it. -/
def searchGo (k : ℕ) (dq : ℕ → D) : VPNode D → List (ℕ × D) → List (ℕ × D)
  | .leaf idxs, rs => idxs.foldl (fun r i => insertRS k (i, dq i) r) rs
  | .node v th near far, rs =>
    if dq v ≤ th then
      if visitFar (dq v) th (tauOf k (searchGo k dq near (insertRS k (v, dq v) rs)))
      then searchGo k dq far (searchGo k dq near (insertRS k (v, dq v) rs))
      else searchGo k dq near (insertRS k (v, dq v) rs)
    else
      if visitNear (dq v) th (tauOf k (searchGo k dq far (insertRS k (v, dq v) rs)))
      then searchGo k dq near (searchGo k dq far (insertRS k (v, dq v) rs))
      else searchGo k dq far (insertRS k (v, dq v) rs)

/-- Candidate pairs of a list of item indices. -/
def pairsOf (dq : ℕ → D) (l : List ℕ) : List (ℕ × D) :=
  l.map fun i => (i, dq i)

theorem pairsOf_append (dq : ℕ → D) (l l2 : List ℕ) :
    pairsOf dq (l ++ l2) = pairsOf dq l ++ pairsOf dq l2 :=
  List.map_append _ _ _

theorem foldl_insertPairs (k : ℕ) (dq : ℕ → D) :
    ∀ (l : List ℕ) (zs : List (ℕ × D)),
      l.foldl (fun r i => insertRS k (i, dq i) r) (selK k zs) = selK k (pairsOf dq l ++ zs) := by
  intro l
  induction l with
  | nil => intro zs; rfl
  | cons i t ih =>
    intro zs
    have h1 : List.foldl (fun r j => insertRS k (j, dq j) r) (selK k zs) (i :: t)
        = List.foldl (fun r j => insertRS k (j, dq j) r) (insertRS k (i, dq i) (selK k zs)) t :=
      rfl
    rw [h1, insertRS_selK, ih ((i, dq i) :: zs)]
    exact selK_perm k List.perm_middle

/-- Main invariant of the traversal: starting from the ResultSet holding the k
best of an already-seen list zs, searching a structurally valid subtree ends
with the ResultSet holding the k best of the subtree's items together with zs.
The two triangle-inequality hypotheses H1 and H2 justify the two pruning
rules. -/
theorem searchGo_selK (k : ℕ) (dq : ℕ → D) (dd : ℕ → ℕ → D)
    (H1 : ∀ v x, dq v - dd v x ≤ dq x) (H2 : ∀ v x, dd v x - dq v ≤ dq x) :
    ∀ (t : VPNode D), InvT dd t → ∀ zs : List (ℕ × D),
      searchGo k dq t (selK k zs) = selK k (pairsOf dq (indicesOf t) ++ zs) := by
  intro t
  induction t with
  | leaf idxs =>
    intro _ zs
    exact foldl_insertPairs k dq idxs zs
  | node v th near far ihn ihf =>
    intro hinv zs
    obtain ⟨hnear, hfar, hin, hif⟩ := hinv
    have hrs0 : insertRS k (v, dq v) (selK k zs) = selK k ((v, dq v) :: zs) :=
      insertRS_selK k _ zs
    have htarget : (pairsOf dq (indicesOf (VPNode.node v th near far)) ++ zs)
        = (v, dq v) :: ((pairsOf dq (indicesOf near) ++ pairsOf dq (indicesOf far)) ++ zs) := by
      show pairsOf dq (v :: (indicesOf near ++ indicesOf far)) ++ zs = _
      rw [pairsOf, List.map_cons, ← pairsOf, pairsOf_append]
      rfl
    by_cases hd : dq v ≤ th
    · show (if dq v ≤ th then _ else _) = _
      rw [if_pos hd, hrs0]
      have hrs1 : searchGo k dq near (selK k ((v, dq v) :: zs))
          = selK k (pairsOf dq (indicesOf near) ++ (v, dq v) :: zs) := ihn hin _
      rw [hrs1]
      by_cases hvf : visitFar (dq v) th
          (tauOf k (selK k (pairsOf dq (indicesOf near) ++ (v, dq v) :: zs))) = true
      · rw [if_pos hvf, ihf hif _, htarget]
        apply selK_perm
        have h1 : (pairsOf dq (indicesOf near) ++ (v, dq v) :: zs).Perm
            ((v, dq v) :: (pairsOf dq (indicesOf near) ++ zs)) := List.perm_middle
        have h2 : (pairsOf dq (indicesOf far) ++ (pairsOf dq (indicesOf near) ++ (v, dq v) :: zs)).Perm
            (pairsOf dq (indicesOf far) ++ ((v, dq v) :: (pairsOf dq (indicesOf near) ++ zs))) :=
          h1.append_left _
        have h3 : (pairsOf dq (indicesOf far) ++ ((v, dq v) :: (pairsOf dq (indicesOf near) ++ zs))).Perm
            ((v, dq v) :: (pairsOf dq (indicesOf far) ++ (pairsOf dq (indicesOf near) ++ zs))) :=
          List.perm_middle
        have h4 : (pairsOf dq (indicesOf far) ++ (pairsOf dq (indicesOf near) ++ zs)).Perm
            ((pairsOf dq (indicesOf near) ++ pairsOf dq (indicesOf far)) ++ zs) := by
          rw [← List.append_assoc]
          exact List.perm_append_comm.append_right zs
        exact (h2.trans h3).trans (h4.cons _)
      · rw [if_neg hvf]
        obtain ⟨tt, htau, hlt⟩ := visitFar_eq_false (by simpa using hvf)
        obtain ⟨hbound, hklen⟩ := selK_tau_bound htau
        have habs : selK k (pairsOf dq (indicesOf far)
            ++ (pairsOf dq (indicesOf near) ++ (v, dq v) :: zs))
            = selK k (pairsOf dq (indicesOf near) ++ (v, dq v) :: zs) := by
          apply selK_append_absorb k hklen
          intro p hp e he
          obtain ⟨x, hx, rfl⟩ := List.mem_map.mp hp
          have hxa : th < dd v x := hfar x hx
          have hgt : tt < dq x := by
            have hx2 : dd v x - dq v ≤ dq x := H2 v x
            exact lt_of_lt_of_le (lt_trans (lt_sub_iff_add_lt.mpr
              (by rw [add_comm]; exact hlt)) (sub_lt_sub_right hxa _)) hx2
          exact lt_of_le_of_lt (hbound e he) hgt
        rw [htarget, ← habs]
        apply selK_perm
        have h1 : (pairsOf dq (indicesOf near) ++ (v, dq v) :: zs).Perm
            ((v, dq v) :: (pairsOf dq (indicesOf near) ++ zs)) := List.perm_middle
        have h2 : (pairsOf dq (indicesOf far) ++ (pairsOf dq (indicesOf near) ++ (v, dq v) :: zs)).Perm
            ((v, dq v) :: (pairsOf dq (indicesOf far) ++ (pairsOf dq (indicesOf near) ++ zs))) :=
          (h1.append_left (pairsOf dq (indicesOf far))).trans List.perm_middle
        have h4 : (pairsOf dq (indicesOf far) ++ (pairsOf dq (indicesOf near) ++ zs)).Perm
            ((pairsOf dq (indicesOf near) ++ pairsOf dq (indicesOf far)) ++ zs) := by
          rw [← List.append_assoc]
          exact List.perm_append_comm.append_right zs
        exact h2.trans (h4.cons _)
    · show (if dq v ≤ th then _ else _) = _
      rw [if_neg hd, hrs0]
      have hrs1 : searchGo k dq far (selK k ((v, dq v) :: zs))
          = selK k (pairsOf dq (indicesOf far) ++ (v, dq v) :: zs) := ihf hif _
      rw [hrs1]
      by_cases hvn : visitNear (dq v) th
          (tauOf k (selK k (pairsOf dq (indicesOf far) ++ (v, dq v) :: zs))) = true
      · rw [if_pos hvn, ihn hin _, htarget]
        apply selK_perm
        have h1 : (pairsOf dq (indicesOf far) ++ (v, dq v) :: zs).Perm
            ((v, dq v) :: (pairsOf dq (indicesOf far) ++ zs)) := List.perm_middle
        have h2 : (pairsOf dq (indicesOf near) ++ (pairsOf dq (indicesOf far) ++ (v, dq v) :: zs)).Perm
            ((v, dq v) :: (pairsOf dq (indicesOf near) ++ (pairsOf dq (indicesOf far) ++ zs))) :=
          (h1.append_left (pairsOf dq (indicesOf near))).trans List.perm_middle
        have h4 : (pairsOf dq (indicesOf near) ++ (pairsOf dq (indicesOf far) ++ zs)).Perm
            ((pairsOf dq (indicesOf near) ++ pairsOf dq (indicesOf far)) ++ zs) := by
          rw [← List.append_assoc]
        exact h2.trans (h4.cons _)
      · rw [if_neg hvn]
        obtain ⟨tt, htau, hlt⟩ := visitNear_eq_false (by simpa using hvn)
        obtain ⟨hbound, hklen⟩ := selK_tau_bound htau
        have habs : selK k (pairsOf dq (indicesOf near)
            ++ (pairsOf dq (indicesOf far) ++ (v, dq v) :: zs))
            = selK k (pairsOf dq (indicesOf far) ++ (v, dq v) :: zs) := by
          apply selK_append_absorb k hklen
          intro p hp e he
          obtain ⟨x, hx, rfl⟩ := List.mem_map.mp hp
          have hxa : dd v x ≤ th := hnear x hx
          have hgt : tt < dq x := by
            have hx1 : dq v - dd v x ≤ dq x := H1 v x
            exact lt_of_lt_of_le (lt_of_lt_of_le (lt_sub_comm.mp hlt)
              (sub_le_sub_left hxa _)) hx1
          exact lt_of_le_of_lt (hbound e he) hgt
        rw [htarget, ← habs]
        apply selK_perm
        have h1 : (pairsOf dq (indicesOf far) ++ (v, dq v) :: zs).Perm
            ((v, dq v) :: (pairsOf dq (indicesOf far) ++ zs)) := List.perm_middle
        have h2 : (pairsOf dq (indicesOf near) ++ (pairsOf dq (indicesOf far) ++ (v, dq v) :: zs)).Perm
            ((v, dq v) :: (pairsOf dq (indicesOf near) ++ (pairsOf dq (indicesOf far) ++ zs))) :=
          (h1.append_left (pairsOf dq (indicesOf near))).trans List.perm_middle
        have h4 : (pairsOf dq (indicesOf near) ++ (pairsOf dq (indicesOf far) ++ zs)).Perm
            ((pairsOf dq (indicesOf near) ++ pairsOf dq (indicesOf far)) ++ zs) := by
          rw [← List.append_assoc]
        exact h2.trans (h4.cons _)

theorem mem_insertRS {k : ℕ} {p e : ℕ × D} {rs : List (ℕ × D)} (h : e ∈ insertRS k p rs) :
    e = p ∨ e ∈ rs :=
  (List.mem_orderedInsert _).mp (List.take_subset _ _ h)

theorem insertRS_ne_nil {k : ℕ} (hk : 1 ≤ k) (p : ℕ × D) (rs : List (ℕ × D)) :
    insertRS k p rs ≠ [] := by
  intro hc
  rcases List.take_eq_nil_iff.mp hc with h0 | h0
  · omega
  · have := List.orderedInsert_length lexLe rs p
    rw [h0] at this
    simp at this

theorem foldl_insertRS_ne_nil {k : ℕ} (hk : 1 ≤ k) (dq : ℕ → D) :
    ∀ (l : List ℕ) (rs : List (ℕ × D)), rs ≠ [] →
      l.foldl (fun r i => insertRS k (i, dq i) r) rs ≠ [] := by
  intro l
  induction l with
  | nil => intro rs h; exact h
  | cons i t ih =>
    intro rs _
    exact ih (insertRS k (i, dq i) rs) (insertRS_ne_nil hk _ _)

theorem searchGo_ne_nil {k : ℕ} (hk : 1 ≤ k) (dq : ℕ → D) :
    ∀ (t : VPNode D) (rs : List (ℕ × D)), indicesOf t ≠ [] ∨ rs ≠ [] →
      searchGo k dq t rs ≠ [] := by
  intro t
  induction t with
  | leaf idxs =>
    intro rs h
    cases idxs with
    | nil =>
      rcases h with h | h
      · exact absurd rfl h
      · exact h
    | cons i t2 =>
      exact foldl_insertRS_ne_nil hk dq t2 _ (insertRS_ne_nil hk _ _)
  | node v th near far ihn ihf =>
    intro rs _
    show (if dq v ≤ th then _ else _) ≠ []
    by_cases hd : dq v ≤ th
    · rw [if_pos hd]
      have h1 : searchGo k dq near (insertRS k (v, dq v) rs) ≠ [] :=
        ihn _ (Or.inr (insertRS_ne_nil hk _ _))
      by_cases hvf : visitFar (dq v) th
          (tauOf k (searchGo k dq near (insertRS k (v, dq v) rs))) = true
      · rw [if_pos hvf]
        exact ihf _ (Or.inr h1)
      · rw [if_neg hvf]
        exact h1
    · rw [if_neg hd]
      have h1 : searchGo k dq far (insertRS k (v, dq v) rs) ≠ [] :=
        ihf _ (Or.inr (insertRS_ne_nil hk _ _))
      by_cases hvn : visitNear (dq v) th
          (tauOf k (searchGo k dq far (insertRS k (v, dq v) rs))) = true
      · rw [if_pos hvn]
        exact ihn _ (Or.inr h1)
      · rw [if_neg hvn]
        exact h1

theorem mem_foldl_insertRS {k : ℕ} (dq : ℕ → D) :
    ∀ (l : List ℕ) (rs : List (ℕ × D)) (p : ℕ × D),
      p ∈ l.foldl (fun r i => insertRS k (i, dq i) r) rs →
      (∃ i ∈ l, p = (i, dq i)) ∨ p ∈ rs := by
  intro l
  induction l with
  | nil => intro rs p h; exact Or.inr h
  | cons i t ih =>
    intro rs p h
    rcases ih (insertRS k (i, dq i) rs) p h with h2 | h2
    · obtain ⟨j, hj, hp⟩ := h2
      exact Or.inl ⟨j, List.mem_cons_of_mem _ hj, hp⟩
    · rcases mem_insertRS h2 with h3 | h3
      · exact Or.inl ⟨i, List.mem_cons_self _ _, h3⟩
      · exact Or.inr h3

theorem mem_searchGo {k : ℕ} (dq : ℕ → D) :
    ∀ (t : VPNode D) (rs : List (ℕ × D)) (p : ℕ × D), p ∈ searchGo k dq t rs →
      (∃ i ∈ indicesOf t, p = (i, dq i)) ∨ p ∈ rs := by
  intro t
  induction t with
  | leaf idxs => intro rs p h; exact mem_foldl_insertRS dq idxs rs p h
  | node v th near far ihn ihf =>
    intro rs p h
    have hup : ∀ x : ℕ, x ∈ indicesOf near → x ∈ indicesOf (VPNode.node v th near far) := by
      intro x hx
      exact List.mem_cons_of_mem _ (List.mem_append_left _ hx)
    have hup2 : ∀ x : ℕ, x ∈ indicesOf far → x ∈ indicesOf (VPNode.node v th near far) := by
      intro x hx
      exact List.mem_cons_of_mem _ (List.mem_append_right _ hx)
    have hvmem : (v : ℕ) ∈ indicesOf (VPNode.node v th near far) := List.mem_cons_self _ _
    have hbase : ∀ e : ℕ × D, e ∈ insertRS k (v, dq v) rs →
        (∃ i ∈ indicesOf (VPNode.node v th near far), e = (i, dq i)) ∨ e ∈ rs := by
      intro e he
      rcases mem_insertRS he with h3 | h3
      · exact Or.inl ⟨v, hvmem, h3⟩
      · exact Or.inr h3
    have hnearStep : ∀ e : ℕ × D, e ∈ searchGo k dq near (insertRS k (v, dq v) rs) →
        (∃ i ∈ indicesOf (VPNode.node v th near far), e = (i, dq i)) ∨ e ∈ rs := by
      intro e he
      rcases ihn _ e he with h3 | h3
      · obtain ⟨i, hi, hp⟩ := h3
        exact Or.inl ⟨i, hup i hi, hp⟩
      · exact hbase e h3
    have hfarStep : ∀ e : ℕ × D, e ∈ searchGo k dq far (insertRS k (v, dq v) rs) →
        (∃ i ∈ indicesOf (VPNode.node v th near far), e = (i, dq i)) ∨ e ∈ rs := by
      intro e he
      rcases ihf _ e he with h3 | h3
      · obtain ⟨i, hi, hp⟩ := h3
        exact Or.inl ⟨i, hup2 i hi, hp⟩
      · exact hbase e h3
    revert h
    show p ∈ (if dq v ≤ th then _ else _) → _
    by_cases hd : dq v ≤ th
    · rw [if_pos hd]
      by_cases hvf : visitFar (dq v) th
          (tauOf k (searchGo k dq near (insertRS k (v, dq v) rs))) = true
      · rw [if_pos hvf]
        intro h
        rcases ihf _ p h with h3 | h3
        · obtain ⟨i, hi, hp⟩ := h3
          exact Or.inl ⟨i, hup2 i hi, hp⟩
        · exact hnearStep p h3
      · rw [if_neg hvf]
        exact hnearStep p
    · rw [if_neg hd]
      by_cases hvn : visitNear (dq v) th
          (tauOf k (searchGo k dq far (insertRS k (v, dq v) rs))) = true
      · rw [if_pos hvn]
        intro h
        rcases ihn _ p h with h3 | h3
        · obtain ⟨i, hi, hp⟩ := h3
          exact Or.inl ⟨i, hup i hi, hp⟩
        · exact hfarStep p h3
      · rw [if_neg hvn]
        exact hfarStep p

/-- Error taxonomy (spec section 7). -/
inductive VPError : Type
  | emptyInput : VPError
deriving DecidableEq

/-- The handle returned by construction, mirroring the opaque vp_handle of
src/vp.h: it borrows the item collection and the distance callback and owns
the root node. -/
structure VPHandle (α D : Type) : Type where
  items : List α
  dist : α → α → D
  root : VPNode D

/-- Distance between two stored items, by index.  Mirrors the distance
callback of src/vp.h applied to two entries of the item_pointers array. -/
def ddOf [Inhabited α] (dist : α → α → D) (items : List α) (i j : ℕ) : D :=
  dist (items.getD i default) (items.getD j default)

/-- Distance from a stored item to the needle (spec section 4.2 computes
distance(vantage, needle)). -/
def dqOf [Inhabited α] (dist : α → α → D) (items : List α) (needle : α) (i : ℕ) : D :=
  dist (items.getD i default) needle

/-- Modelled from the spec: the construction entry point vp_init (declared in
src/vp.h line 9; its body vp.c is not in src).  Accepts the item collection
and the distance callback, fails with EmptyInputError on zero items
(spec sections 6 and 7), and otherwise builds the tree over all indices. -/
def vp_init [Inhabited α] (L : ℕ) (sel : List ℕ → ℕ) (dist : α → α → D) (items : List α) :
    Except VPError (VPHandle α D) :=
  if items.length = 0 then .error .emptyInput
  else .ok ⟨items, dist, build L sel (ddOf dist items) (List.range items.length)⟩

/-- Modelled from the spec: the k-nearest query entry point find_nearest_k
(spec sections 4.2 and 6; its body lib.rs / vp.c is not in src). -/
def find_nearest_k [Inhabited α] (h : VPHandle α D) (needle : α) (k : ℕ) : List (ℕ × D) :=
  searchGo k (dqOf h.dist h.items needle) h.root []

/-- Modelled from the spec: the k = 1 convenience entry point find_nearest,
returning the nearest item index together with its distance (spec section 6). -/
def find_nearest [Inhabited α] (h : VPHandle α D) (needle : α) : ℕ × D :=
  (find_nearest_k h needle 1).headD (0, 0)

/-- The C entry point vp_find_nearest (src/vp.h line 11) returns the nearest
item index alone. -/
def vp_find_nearest [Inhabited α] (h : VPHandle α D) (needle : α) : ℕ :=
  (find_nearest h needle).1

/-- Brute-force reference, following the wording of spec section 8: the list
of (index, distance) pairs produced by a linear scan over all items. -/
def linearScan [Inhabited α] (dist : α → α → D) (items : List α) (q : α) : List (ℕ × D) :=
  (List.range items.length).map fun i => (i, dist (items.getD i default) q)

/-- Brute-force reference: the k smallest distances obtained by a linear scan
over all items, ties broken by index (spec section 8). -/
def bruteForceK [Inhabited α] (k : ℕ) (dist : α → α → D) (items : List α) (q : α) :
    List (ℕ × D) :=
  selK k (linearScan dist items q)

/-- Brute-force reference for k = 1: the item with the smallest distance to
the query, ties broken by smallest index. -/
def bruteNearest [Inhabited α] (dist : α → α → D) (items : List α) (q : α) : ℕ × D :=
  (bruteForceK 1 dist items q).headD (0, 0)

theorem vp_init_ok [Inhabited α] {L : ℕ} {sel : List ℕ → ℕ} {dist : α → α → D}
    {items : List α} {h : VPHandle α D} (hinit : vp_init L sel dist items = .ok h) :
    h.items = items ∧ h.dist = dist ∧
      h.root = build L sel (ddOf dist items) (List.range items.length) ∧
      items.length ≠ 0 := by
  unfold vp_init at hinit
  by_cases hn : items.length = 0
  · rw [if_pos hn] at hinit
    cases hinit
  · rw [if_neg hn] at hinit
    cases hinit
    exact ⟨rfl, rfl, rfl, hn⟩

theorem pairsOf_range [Inhabited α] (dist : α → α → D) (items : List α) (q : α) :
    pairsOf (dqOf dist items q) (List.range items.length) = linearScan dist items q :=
  rfl

/-- Central correctness helper: on a handle produced by vp_init, the
k-nearest query coincides with the brute-force reference, for every k, as
soon as the supplied distance is symmetric and satisfies the triangle
inequality (spec section 6, MetricSpace contract). -/
theorem find_nearest_k_eq_brute [Inhabited α] (L : ℕ) (sel : List ℕ → ℕ)
    (dist : α → α → D) (items : List α) (q : α) (k : ℕ)
    (hsym : ∀ a b : α, dist a b = dist b a)
    (htri : ∀ a b c : α, dist a c ≤ dist a b + dist b c)
    {h : VPHandle α D} (hinit : vp_init L sel dist items = .ok h) :
    find_nearest_k h q k = bruteForceK k dist items q := by
  obtain ⟨hi, hdist, hroot, _⟩ := vp_init_ok hinit
  have H1 : ∀ v x : ℕ, dqOf dist items q v - ddOf dist items v x ≤ dqOf dist items q x := by
    intro v x
    have h3 := htri (items.getD v default) (items.getD x default) q
    unfold dqOf ddOf
    rw [sub_le_iff_le_add, add_comm]
    exact h3
  have H2 : ∀ v x : ℕ, ddOf dist items v x - dqOf dist items q v ≤ dqOf dist items q x := by
    intro v x
    have h3 := htri (items.getD v default) q (items.getD x default)
    have h4 := hsym q (items.getD x default)
    unfold dqOf ddOf
    rw [h4] at h3
    rw [sub_le_iff_le_add, add_comm]
    exact h3
  have h0 : selK k ([] : List (ℕ × D)) = [] := by
    unfold selK sortPairs
    simp
  show searchGo k (dqOf h.dist h.items q) h.root [] = _
  rw [hi, hdist, hroot, ← h0,
    searchGo_selK k (dqOf dist items q) (ddOf dist items) H1 H2 _
      (build_inv L sel (ddOf dist items) (List.range items.length)) []]
  rw [List.append_nil]
  have hperm : (pairsOf (dqOf dist items q)
      (indicesOf (build L sel (ddOf dist items) (List.range items.length)))).Perm
      (pairsOf (dqOf dist items q) (List.range items.length)) :=
    (build_perm L sel (ddOf dist items) (List.range items.length)).map _
  rw [selK_perm k hperm, pairsOf_range]
  rfl

theorem length_bruteForceK [Inhabited α] (k : ℕ) (dist : α → α → D) (items : List α) (q : α) :
    (bruteForceK k dist items q).length = min k items.length := by
  unfold bruteForceK
  rw [length_selK]
  unfold linearScan
  rw [List.length_map, List.length_range]

theorem mem_take_sorted {l : List (ℕ × D)} (hs : List.Sorted lexLe l) :
    ∀ (k : ℕ) {x y : ℕ × D}, x ∈ l → y ∈ l.take k → lexLe x y → x ∈ l.take k := by
  induction l with
  | nil => intro k x y hx _ _; cases hx
  | cons z t ih =>
    intro k x y hx hy hxy
    cases k with
    | zero => cases hy
    | succ k =>
      rw [List.take_succ_cons] at hy ⊢
      rcases List.mem_cons.mp hx with rfl | hxt
      · exact List.mem_cons_self _ _
      · rcases List.mem_cons.mp hy with rfl | hyt
        · have hzx : lexLe y x := (List.sorted_cons.mp hs).1 x hxt
          have : x = y := lexLe_antisymm hxy hzx
          rw [this]
          exact List.mem_cons_self _ _
        · exact List.mem_cons_of_mem _ (ih (List.sorted_cons.mp hs).2 k hxt hyt hxy)

/-- Distances sorted ascending, used to compare query outputs that agree only
up to the indices attached to equal distances. -/
def sortD (l : List D) : List D :=
  List.insertionSort (fun a b => a ≤ b) l

theorem sortD_perm {l l2 : List D} (h : l.Perm l2) : sortD l = sortD l2 :=
  List.eq_of_perm_of_sorted
    ((List.perm_insertionSort _ _).trans (h.trans (List.perm_insertionSort _ _).symm))
    (List.sorted_insertionSort _ _) (List.sorted_insertionSort _ _)

theorem map_snd_sortPairs (ps : List (ℕ × D)) :
    (sortPairs ps).map Prod.snd = sortD (ps.map Prod.snd) := by
  apply List.eq_of_perm_of_sorted (r := fun a b : D => a ≤ b)
  · exact ((List.perm_insertionSort lexLe ps).map Prod.snd).trans
      (List.perm_insertionSort (fun a b : D => a ≤ b) (ps.map Prod.snd)).symm
  · exact List.Pairwise.map _ (fun a b h => lexLe_snd_le h) (List.sorted_insertionSort _ _)
  · exact List.sorted_insertionSort _ _

theorem map_snd_selK (k : ℕ) (ps : List (ℕ × D)) :
    (selK k ps).map Prod.snd = (sortD (ps.map Prod.snd)).take k := by
  unfold selK
  rw [List.map_take, map_snd_sortPairs]

theorem map_getD_range [Inhabited α] (items : List α) (f : α → D) :
    (List.range items.length).map (fun i => f (items.getD i default)) = items.map f := by
  apply List.ext_getElem
  · rw [List.length_map, List.length_range, List.length_map]
  · intro n h1 h2
    rw [List.getElem_map, List.getElem_range, List.getElem_map,
      List.getD_eq_getElem items default (by simpa using h2)]

theorem map_snd_linearScan [Inhabited α] (dist : α → α → D) (items : List α) (q : α) :
    (linearScan dist items q).map Prod.snd = items.map (fun a => dist a q) := by
  unfold linearScan
  rw [List.map_map]
  exact map_getD_range items (fun a => dist a q)

/-- Modelled from the spec: the query traversal with the handle state threaded
explicitly through every recursive call, so that any write to the tree during
a query would show up as a change of state (spec section 5 states no such
write occurs; vp.c, which would decide this, is not in src; src/vp.h declares
the handle const at line 11). -/
def searchGoSt (k : ℕ) (dq : ℕ → D) :
    VPNode D → List (ℕ × D) × VPHandle α D → List (ℕ × D) × VPHandle α D
  | .leaf idxs, s => (idxs.foldl (fun r i => insertRS k (i, dq i) r) s.1, s.2)
  | .node v th near far, s =>
    if dq v ≤ th then
      if visitFar (dq v) th
          (tauOf k (searchGoSt k dq near (insertRS k (v, dq v) s.1, s.2)).1)
      then searchGoSt k dq far (searchGoSt k dq near (insertRS k (v, dq v) s.1, s.2))
      else searchGoSt k dq near (insertRS k (v, dq v) s.1, s.2)
    else
      if visitNear (dq v) th
          (tauOf k (searchGoSt k dq far (insertRS k (v, dq v) s.1, s.2)).1)
      then searchGoSt k dq near (searchGoSt k dq far (insertRS k (v, dq v) s.1, s.2))
      else searchGoSt k dq far (insertRS k (v, dq v) s.1, s.2)

/-- State-threaded form of find_nearest_k: returns the result list together
with the handle as it stands after the query. -/
def find_nearest_k_st [Inhabited α] (h : VPHandle α D) (needle : α) (k : ℕ) :
    List (ℕ × D) × VPHandle α D :=
  searchGoSt k (dqOf h.dist h.items needle) h.root ([], h)

theorem searchGoSt_eq (k : ℕ) (dq : ℕ → D) :
    ∀ (t : VPNode D) (s : List (ℕ × D) × VPHandle α D),
      searchGoSt k dq t s = (searchGo k dq t s.1, s.2) := by
  intro t
  induction t with
  | leaf idxs => intro s; rfl
  | node v th near far ihn ihf =>
    intro s
    show (if dq v ≤ th then _ else _) = (if dq v ≤ th then _ else _, s.2)
    by_cases hd : dq v ≤ th
    · rw [if_pos hd, if_pos hd, ihn (insertRS k (v, dq v) s.1, s.2)]
      by_cases hvf : visitFar (dq v) th
          (tauOf k (searchGo k dq near (insertRS k (v, dq v) s.1))) = true
      · rw [if_pos hvf, if_pos hvf, ihf]
      · rw [if_neg hvf, if_neg hvf]
    · rw [if_neg hd, if_neg hd, ihf (insertRS k (v, dq v) s.1, s.2)]
      by_cases hvn : visitNear (dq v) th
          (tauOf k (searchGo k dq far (insertRS k (v, dq v) s.1))) = true
      · rw [if_pos hvn, if_pos hvn, ihn]
      · rw [if_neg hvn, if_neg hvn]

theorem find_nearest_k_st_eq [Inhabited α] (h : VPHandle α D) (needle : α) (k : ℕ) :
    find_nearest_k_st h needle k = (find_nearest_k h needle k, h) :=
  searchGoSt_eq k _ h.root ([], h)

/-- One argument of one invocation of the distance callback.  The callback
type of src/vp.h line 4 passes item pointers; a context argument, were one
passed, would appear as a further ctx entry. -/
inductive CallArg (α C : Type) : Type
  | item : α → CallArg α C
  | ctx : C → CallArg α C
deriving DecidableEq

/-- Argument list of one distance-callback invocation exactly as declared in
src/vp.h line 4: the two compared item pointers and nothing else. -/
def cCallArgs (C : Type) (c : α × α) : List (CallArg α C) :=
  [CallArg.item c.1, CallArg.item c.2]

/-- Modelled from the spec: tree construction (vp.c is not in src)
instrumented to record, for every invocation of the distance callback, the
pair of items passed to it.  The first component mirrors buildF step for
step; distance evaluations occur when measuring the subset against the
vantage and when partitioning it into the near and the far half. -/
def buildFLog [Inhabited α] (L : ℕ) (sel : List ℕ → ℕ) (dist : α → α → D) (items : List α) :
    ℕ → List ℕ → VPNode D × List (α × α)
  | 0, l => (.leaf l, [])
  | fuel + 1, l =>
    if hL : l.length ≤ L then (.leaf l, [])
    else
      have hpos : 0 < l.length := by omega
      let p := sel l % l.length
      let v := l.get ⟨p, Nat.mod_lt _ hpos⟩
      let rest := l.eraseIdx p
      let th := medianOf (rest.map (ddOf dist items v))
      let nearR := buildFLog L sel dist items fuel
        (rest.filter fun x => decide (ddOf dist items v x ≤ th))
      let farR := buildFLog L sel dist items fuel
        (rest.filter fun x => ! decide (ddOf dist items v x ≤ th))
      (.node v th nearR.1 farR.1,
        (rest.map fun x => (items.getD v default, items.getD x default))
          ++ ((rest.map fun x => (items.getD v default, items.getD x default))
          ++ ((rest.map fun x => (items.getD v default, items.getD x default))
          ++ (nearR.2 ++ farR.2))))

/-- Modelled from the spec: the query traversal (vp.c / lib.rs is not in src)
instrumented to record, for every invocation of the distance callback, the
pair of arguments passed to it; the traversal always compares a stored item
against the needle. -/
def searchGoLog [Inhabited α] (k : ℕ) (dist : α → α → D) (items : List α) (needle : α) :
    VPNode D → List (ℕ × D) → List (ℕ × D) × List (α × α)
  | .leaf idxs, rs =>
    (idxs.foldl (fun r i => insertRS k (i, dqOf dist items needle i) r) rs,
      idxs.map fun i => (items.getD i default, needle))
  | .node v th near far, rs =>
    if dqOf dist items needle v ≤ th then
      let r1 := searchGoLog k dist items needle near
        (insertRS k (v, dqOf dist items needle v) rs)
      if visitFar (dqOf dist items needle v) th (tauOf k r1.1) then
        let r2 := searchGoLog k dist items needle far r1.1
        (r2.1, (items.getD v default, needle) :: (r1.2 ++ r2.2))
      else (r1.1, (items.getD v default, needle) :: r1.2)
    else
      let r1 := searchGoLog k dist items needle far
        (insertRS k (v, dqOf dist items needle v) rs)
      if visitNear (dqOf dist items needle v) th (tauOf k r1.1) then
        let r2 := searchGoLog k dist items needle near r1.1
        (r2.1, (items.getD v default, needle) :: (r1.2 ++ r2.2))
      else (r1.1, (items.getD v default, needle) :: r1.2)

theorem buildFLog_fst [Inhabited α] (L : ℕ) (sel : List ℕ → ℕ) (dist : α → α → D)
    (items : List α) :
    ∀ (fuel : ℕ) (l : List ℕ),
      (buildFLog L sel dist items fuel l).1 = buildF L sel (ddOf dist items) fuel l := by
  intro fuel
  induction fuel with
  | zero => intro l; rfl
  | succ fuel ih =>
    intro l
    rw [buildFLog, buildF]
    by_cases hL : l.length ≤ L
    · rw [dif_pos hL, dif_pos hL]
    · rw [dif_neg hL, dif_neg hL]
      show VPNode.node _ _ _ _ = VPNode.node _ _ _ _
      rw [ih, ih]

theorem searchGoLog_fst [Inhabited α] (k : ℕ) (dist : α → α → D) (items : List α)
    (needle : α) :
    ∀ (t : VPNode D) (rs : List (ℕ × D)),
      (searchGoLog k dist items needle t rs).1
        = searchGo k (dqOf dist items needle) t rs := by
  intro t
  induction t with
  | leaf idxs => intro rs; rfl
  | node v th near far ihn ihf =>
    intro rs
    by_cases hd : dqOf dist items needle v ≤ th
    · by_cases hvf : visitFar (dqOf dist items needle v) th
          (tauOf k (searchGo k (dqOf dist items needle) near
            (insertRS k (v, dqOf dist items needle v) rs))) = true
      · simp only [searchGoLog, searchGo, ihn, if_pos hd, if_pos hvf, ihf]
      · simp only [searchGoLog, searchGo, ihn, if_pos hd, if_neg hvf]
    · by_cases hvn : visitNear (dqOf dist items needle v) th
          (tauOf k (searchGo k (dqOf dist items needle) far
            (insertRS k (v, dqOf dist items needle v) rs))) = true
      · simp only [searchGoLog, searchGo, ihf, if_neg hd, if_pos hvn, ihn]
      · simp only [searchGoLog, searchGo, ihf, if_neg hd, if_neg hvn]

theorem getD_mem_of_lt [Inhabited α] {items : List α} {i : ℕ} (h : i < items.length) :
    items.getD i default ∈ items := by
  rw [List.getD_eq_getElem items default h]
  exact List.getElem_mem h

theorem buildFLog_calls [Inhabited α] (L : ℕ) (sel : List ℕ → ℕ) (dist : α → α → D)
    (items : List α) :
    ∀ (fuel : ℕ) (l : List ℕ), (∀ i ∈ l, i < items.length) →
      ∀ c ∈ (buildFLog L sel dist items fuel l).2, c.1 ∈ items ∧ c.2 ∈ items := by
  intro fuel
  induction fuel with
  | zero => intro l _ c hc; cases hc
  | succ fuel ih =>
    intro l hl c hc
    rw [buildFLog] at hc
    by_cases hL : l.length ≤ L
    · rw [dif_pos hL] at hc
      cases hc
    · rw [dif_neg hL] at hc
      have hpos : 0 < l.length := by omega
      have hvl : l.get ⟨sel l % l.length, Nat.mod_lt _ hpos⟩ ∈ l := List.get_mem _ _ _
      have hrest : ∀ x ∈ l.eraseIdx (sel l % l.length), x ∈ l :=
        fun x hx => List.eraseIdx_subset _ _ hx
      have hmeas : ∀ c2 : α × α,
          c2 ∈ (l.eraseIdx (sel l % l.length)).map
            (fun x => (items.getD (l.get ⟨sel l % l.length, Nat.mod_lt _ hpos⟩) default,
              items.getD x default)) →
          c2.1 ∈ items ∧ c2.2 ∈ items := by
        intro c2 hc2
        obtain ⟨x, hx, rfl⟩ := List.mem_map.mp hc2
        exact ⟨getD_mem_of_lt (hl _ hvl), getD_mem_of_lt (hl x (hrest x hx))⟩
      have hsub : ∀ (pr : ℕ → Bool) (c2 : α × α),
          c2 ∈ (buildFLog L sel dist items fuel
            ((l.eraseIdx (sel l % l.length)).filter pr)).2 →
          c2.1 ∈ items ∧ c2.2 ∈ items := by
        intro pr c2 hc2
        exact ih _ (fun i hi => hl i (hrest i (List.mem_of_mem_filter hi))) c2 hc2
      simp only [List.mem_append, List.mem_cons] at hc
      rcases hc with hc | hc | hc | hc | hc
      · exact hmeas c hc
      · exact hmeas c hc
      · exact hmeas c hc
      · exact hsub _ c hc
      · exact hsub _ c hc

theorem searchGoLog_calls [Inhabited α] (k : ℕ) (dist : α → α → D) (items : List α)
    (needle : α) :
    ∀ (t : VPNode D) (rs : List (ℕ × D)), (∀ i ∈ indicesOf t, i < items.length) →
      ∀ c ∈ (searchGoLog k dist items needle t rs).2, c.1 ∈ items ∧ c.2 = needle := by
  intro t
  induction t with
  | leaf idxs =>
    intro rs hl c hc
    obtain ⟨i, hi, rfl⟩ := List.mem_map.mp hc
    exact ⟨getD_mem_of_lt (hl i hi), rfl⟩
  | node v th near far ihn ihf =>
    intro rs hl c hc
    have hv : v < items.length := hl v (List.mem_cons_self _ _)
    have hln : ∀ i ∈ indicesOf near, i < items.length :=
      fun i hi => hl i (List.mem_cons_of_mem _ (List.mem_append_left _ hi))
    have hlf : ∀ i ∈ indicesOf far, i < items.length :=
      fun i hi => hl i (List.mem_cons_of_mem _ (List.mem_append_right _ hi))
    revert hc
    simp only [searchGoLog]
    by_cases hd : dqOf dist items needle v ≤ th
    · rw [if_pos hd]
      by_cases hvf : visitFar (dqOf dist items needle v) th
          (tauOf k (searchGoLog k dist items needle near
            (insertRS k (v, dqOf dist items needle v) rs)).1) = true
      · rw [if_pos hvf]
        intro hc
        rcases List.mem_cons.mp hc with rfl | hc2
        · exact ⟨getD_mem_of_lt hv, rfl⟩
        · rcases List.mem_append.mp hc2 with hc3 | hc3
          · exact ihn _ hln c hc3
          · exact ihf _ hlf c hc3
      · rw [if_neg hvf]
        intro hc
        rcases List.mem_cons.mp hc with rfl | hc2
        · exact ⟨getD_mem_of_lt hv, rfl⟩
        · exact ihn _ hln c hc2
    · rw [if_neg hd]
      by_cases hvn : visitNear (dqOf dist items needle v) th
          (tauOf k (searchGoLog k dist items needle far
            (insertRS k (v, dqOf dist items needle v) rs)).1) = true
      · rw [if_pos hvn]
        intro hc
        rcases List.mem_cons.mp hc with rfl | hc2
        · exact ⟨getD_mem_of_lt hv, rfl⟩
        · rcases List.mem_append.mp hc2 with hc3 | hc3
          · exact ihf _ hlf c hc3
          · exact ihn _ hln c hc3
      · rw [if_neg hvn]
        intro hc
        rcases List.mem_cons.mp hc with rfl | hc2
        · exact ⟨getD_mem_of_lt hv, rfl⟩
        · exact ihf _ hlf c hc2

/-- The three example points of src/README.md and spec section 8, as points
of the Euclidean plane modelled by the complex numbers, in input order:
(2,3), (0,1), (4,5). -/
def egItems : List ℂ := [⟨2, 3⟩, ⟨0, 1⟩, ⟨4, 5⟩]

/-- The example needle (1, 2) of src/README.md and spec section 8. -/
def egNeedle : ℂ := ⟨1, 2⟩

theorem eg_dist0 : dist (⟨2, 3⟩ : ℂ) egNeedle = Real.sqrt 2 := by
  rw [Complex.dist_eq,
    show (⟨2, 3⟩ : ℂ) - egNeedle = ⟨1, 1⟩ from by apply Complex.ext <;> norm_num [egNeedle],
    Complex.abs_apply, Complex.normSq_mk]
  norm_num

theorem eg_dist1 : dist (⟨0, 1⟩ : ℂ) egNeedle = Real.sqrt 2 := by
  rw [Complex.dist_eq,
    show (⟨0, 1⟩ : ℂ) - egNeedle = ⟨-1, -1⟩ from by apply Complex.ext <;> norm_num [egNeedle],
    Complex.abs_apply, Complex.normSq_mk]
  norm_num

theorem eg_dist2 : dist (⟨4, 5⟩ : ℂ) egNeedle = Real.sqrt 18 := by
  rw [Complex.dist_eq,
    show (⟨4, 5⟩ : ℂ) - egNeedle = ⟨3, 3⟩ from by apply Complex.ext <;> norm_num [egNeedle],
    Complex.abs_apply, Complex.normSq_mk]
  norm_num

theorem eg_scan : linearScan (fun a b : ℂ => dist a b) egItems egNeedle
    = [(0, dist (⟨2, 3⟩ : ℂ) egNeedle), (1, dist (⟨0, 1⟩ : ℂ) egNeedle),
        (2, dist (⟨4, 5⟩ : ℂ) egNeedle)] := rfl

/-- On the example data, the brute-force k = 1 result is the item of index 0
at distance sqrt 2: items 0 and 1 tie at distance sqrt 2 and the tie rule
prefers the smaller index. -/
theorem eg_brute : bruteForceK 1 (fun a b : ℂ => dist a b) egItems egNeedle
    = [(0, Real.sqrt 2)] := by
  unfold bruteForceK
  rw [eg_scan, eg_dist0, eg_dist1, eg_dist2]
  have hlt : Real.sqrt 2 < Real.sqrt 18 := Real.sqrt_lt_sqrt (by norm_num) (by norm_num)
  have h12 : lexLe ((1 : ℕ), Real.sqrt 2) (2, Real.sqrt 18) := Or.inl hlt
  have h01 : lexLe ((0 : ℕ), Real.sqrt 2) (1, Real.sqrt 2) := Or.inr ⟨rfl, by norm_num⟩
  unfold selK sortPairs
  rw [show List.insertionSort lexLe
        [((0 : ℕ), Real.sqrt 2), (1, Real.sqrt 2), (2, Real.sqrt 18)]
      = List.orderedInsert lexLe (0, Real.sqrt 2) (List.orderedInsert lexLe (1, Real.sqrt 2)
          (List.orderedInsert lexLe (2, Real.sqrt 18) [])) from rfl,
    List.orderedInsert_nil, List.orderedInsert_of_le lexLe _ h12,
    List.orderedInsert_of_le lexLe _ h01]
  rfl

/-- On the example data every vp_init-produced handle answers the k = 1 query
with index 0 at distance sqrt 2, whatever the leaf size and vantage
selection. -/
theorem eg_find_nearest (L : ℕ) (sel : List ℕ → ℕ) {h : VPHandle ℂ ℝ}
    (hinit : vp_init L sel (fun a b : ℂ => dist a b) egItems = .ok h) :
    find_nearest h egNeedle = (0, Real.sqrt 2) := by
  have hb := find_nearest_k_eq_brute L sel (fun a b : ℂ => dist a b) egItems egNeedle 1
    (fun a b => dist_comm a b) (fun a b c => dist_triangle a b c) hinit
  unfold find_nearest
  rw [hb, eg_brute]
  rfl

/-- Integer one-dimensional test metric: absolute difference, written with an
explicit comparison so that it evaluates inside the kernel. -/
def intDist (a b : ℤ) : ℤ := if a ≤ b then b - a else a - b

theorem intDist_eq_abs (a b : ℤ) : intDist a b = |a - b| := by
  unfold intDist
  by_cases h : a ≤ b
  · rw [if_pos h, abs_of_nonpos (sub_nonpos.mpr h), neg_sub]
  · rw [if_neg h, abs_of_nonneg (sub_nonneg.mpr (le_of_lt (lt_of_not_le h)))]

theorem intDist_symm : ∀ a b : ℤ, intDist a b = intDist b a := by
  intro a b
  rw [intDist_eq_abs, intDist_eq_abs, abs_sub_comm]

theorem intDist_tri : ∀ a b c : ℤ, intDist a c ≤ intDist a b + intDist b c := by
  intro a b c
  rw [intDist_eq_abs, intDist_eq_abs, intDist_eq_abs]
  exact abs_sub_le a b c

/-- Concrete integer test items. -/
def intItems : List ℤ := [3, 10, 1]

/-- A permuted copy of intItems. -/
def intItemsP : List ℤ := [10, 3, 1]

/-- A trivial deterministic vantage selection. -/
def intSel : List ℕ → ℕ := fun _ => 0

/-- A different vantage selection, to witness independence of traversal
order. -/
def intSel2 : List ℕ → ℕ := fun l => l.length - 1

/-- Handle built from the integer test items with leaf size 1. -/
def hWit : VPHandle ℤ ℤ :=
  ⟨intItems, intDist, build 1 intSel (ddOf intDist intItems) (List.range intItems.length)⟩

theorem hWit_init : vp_init 1 intSel intDist intItems = .ok hWit := rfl

/-- Handle built from the same items with leaf size 0 and the other
selection, giving a different tree shape. -/
def hWit2 : VPHandle ℤ ℤ :=
  ⟨intItems, intDist, build 0 intSel2 (ddOf intDist intItems) (List.range intItems.length)⟩

theorem hWit2_init : vp_init 0 intSel2 intDist intItems = .ok hWit2 := rfl

/-- Handle built from the permuted items. -/
def hWitP : VPHandle ℤ ℤ :=
  ⟨intItemsP, intDist, build 1 intSel (ddOf intDist intItemsP) (List.range intItemsP.length)⟩

theorem hWitP_init : vp_init 1 intSel intDist intItemsP = .ok hWitP := rfl

/-- Items for the permutation counterexample. -/
def cexItems : List ℤ := [1, 2, 9]

/-- A permutation of cexItems swapping the first two items. -/
def cexItemsP : List ℤ := [2, 1, 9]

/-- Handle built from cexItems. -/
def hCex : VPHandle ℤ ℤ :=
  ⟨cexItems, intDist, build 1 intSel (ddOf intDist cexItems) (List.range cexItems.length)⟩

theorem hCex_init : vp_init 1 intSel intDist cexItems = .ok hCex := rfl

/-- Handle built from the permuted cexItemsP. -/
def hCexP : VPHandle ℤ ℤ :=
  ⟨cexItemsP, intDist, build 1 intSel (ddOf intDist cexItemsP) (List.range cexItemsP.length)⟩

theorem hCexP_init : vp_init 1 intSel intDist cexItemsP = .ok hCexP := rfl

theorem sorted_sortPairs (l : List (ℕ × D)) : List.Sorted lexLe (sortPairs l) :=
  List.sorted_insertionSort _ _

theorem sorted_snd_selK (k : ℕ) (l : List (ℕ × D)) :
    List.Sorted (fun p r : ℕ × D => p.2 ≤ r.2) (selK k l) :=
  (sorted_selK k l).imp (fun h => lexLe_snd_le h)

/-- C1: for every item set of n ≥ 1 items (a handle produced by vp_init),
every query item and every caller metric (symmetric and satisfying the
triangle inequality), the k = 1 nearest-neighbor query — vp_find_nearest and
find_nearest_k with k = 1 — returns the item with the smallest distance to
the query among all items: it equals the result of a brute-force linear scan
over the whole collection, with ties broken by smallest index. -/
theorem C1_nearest_equals_linear_scan [Inhabited α] (L : ℕ) (sel : List ℕ → ℕ)
    (dist : α → α → D) (items : List α) (q : α)
    (hsym : ∀ a b : α, dist a b = dist b a)
    (htri : ∀ a b c : α, dist a c ≤ dist a b + dist b c)
    {h : VPHandle α D} (hinit : vp_init L sel dist items = .ok h) :
    find_nearest_k h q 1 = bruteForceK 1 dist items q ∧
      find_nearest h q = bruteNearest dist items q ∧
      vp_find_nearest h q = (bruteNearest dist items q).1 := by
  have hk := find_nearest_k_eq_brute L sel dist items q 1 hsym htri hinit
  refine ⟨hk, ?_, ?_⟩
  · unfold find_nearest bruteNearest
    rw [hk]
  · unfold vp_find_nearest find_nearest bruteNearest
    rw [hk]

/-- Witness for C1 at a concrete rational instance: the metric hypotheses
hold, vp_init succeeds, the query equals the brute-force scan, and both
evaluate to index 0 at distance 1 (items 0 and 2 tie at distance 1). -/
theorem C1_witness :
    (∀ a b : ℤ, intDist a b = intDist b a) ∧
    (∀ a b c : ℤ, intDist a c ≤ intDist a b + intDist b c) ∧
    vp_init 1 intSel intDist intItems = .ok hWit ∧
    find_nearest hWit 2 = bruteNearest intDist intItems 2 ∧
    find_nearest hWit 2 = (0, 1) :=
  ⟨intDist_symm, intDist_tri, hWit_init,
    (C1_nearest_equals_linear_scan 1 intSel intDist intItems 2
      intDist_symm intDist_tri hWit_init).2.1,
    by decide⟩

/-- C3: a construction request with zero items fails with EmptyInputError,
and no tree — not even a partial one — is produced: the error value carries
no handle. -/
theorem C3_empty_input_fails [Inhabited α] (L : ℕ) (sel : List ℕ → ℕ)
    (dist : α → α → D) :
    vp_init L sel dist ([] : List α) = .error .emptyInput := rfl

/-- C4: the query interface offers the two entry points: find_nearest, the
k = 1 convenience returning the nearest (index, distance) pair (the head of
the k = 1 sequence), and find_nearest_k, returning an ordered sequence of
exactly min(k, n) (index, distance) pairs ascending by distance. -/
theorem C4_query_entry_points [Inhabited α] (L : ℕ) (sel : List ℕ → ℕ)
    (dist : α → α → D) (items : List α) (q : α) (k : ℕ)
    (hsym : ∀ a b : α, dist a b = dist b a)
    (htri : ∀ a b c : α, dist a c ≤ dist a b + dist b c)
    {h : VPHandle α D} (hinit : vp_init L sel dist items = .ok h) :
    (find_nearest_k h q k).length = min k items.length ∧
    List.Sorted (fun p r : ℕ × D => p.2 ≤ r.2) (find_nearest_k h q k) ∧
    find_nearest h q = (find_nearest_k h q 1).headD (0, 0) := by
  have hk := find_nearest_k_eq_brute L sel dist items q k hsym htri hinit
  refine ⟨?_, ?_, rfl⟩
  · rw [hk, length_bruteForceK]
  · rw [hk]
    exact sorted_snd_selK k _

/-- Witness for C4 at a concrete rational instance with k = 2: two results,
sorted, and evaluating to the expected pairs. -/
theorem C4_witness :
    vp_init 1 intSel intDist intItems = .ok hWit ∧
    (find_nearest_k hWit 2 2).length = min 2 intItems.length ∧
    find_nearest_k hWit 2 2 = [(0, 1), (2, 1)] :=
  ⟨hWit_init,
    (C4_query_entry_points 1 intSel intDist intItems 2 2
      intDist_symm intDist_tri hWit_init).1,
    by decide⟩

/-- C2 is refuted as stated: on items [(2,3), (0,1), (4,5)] under the
Euclidean distance with needle (1,2) and k = 1, the query does not return
index 1, because (2,3) and (0,1) both lie at distance sqrt 2 from (1,2) and
the tie rule prefers the smaller index. -/
theorem C2_counterexample :
    (vp_init 1 (fun _ => 0) (fun a b : ℂ => dist a b) egItems).map
      (fun h => vp_find_nearest h egNeedle) ≠ Except.ok 1 := by
  have h0 : vp_init 1 (fun _ : List ℕ => 0) (fun a b : ℂ => dist a b) egItems
      = .ok ⟨egItems, fun a b => dist a b,
          build 1 (fun _ => 0) (ddOf (fun a b : ℂ => dist a b) egItems)
            (List.range egItems.length)⟩ := rfl
  have h1 := eg_find_nearest 1 (fun _ => 0) h0
  rw [h0]
  show Except.ok (vp_find_nearest _ egNeedle) ≠ Except.ok 1
  intro hc
  injection hc with h2
  unfold vp_find_nearest at h2
  rw [h1] at h2
  simp at h2

/-- C2 (amended): for the items [(2,3), (0,1), (4,5)] under Euclidean
distance and query (1,2), the k = 1 query returns index 0 (the item (2,3))
at distance sqrt 2, whatever leaf size and vantage selection were used:
(2,3) and (0,1) tie at distance sqrt 2 and the tie is broken towards the
smaller input index. -/
theorem C2_concrete_scenario (L : ℕ) (sel : List ℕ → ℕ) {h : VPHandle ℂ ℝ}
    (hinit : vp_init L sel (fun a b : ℂ => dist a b) egItems = .ok h) :
    find_nearest h egNeedle = (0, Real.sqrt 2) :=
  eg_find_nearest L sel hinit

/-- Witness for C2: vp_init succeeds on the example data and the amended
conclusion holds for the resulting handle. -/
theorem C2_witness :
    vp_init 1 (fun _ => 0) (fun a b : ℂ => dist a b) egItems
      = .ok ⟨egItems, fun a b => dist a b,
          build 1 (fun _ => 0) (ddOf (fun a b : ℂ => dist a b) egItems)
            (List.range egItems.length)⟩ ∧
    find_nearest (⟨egItems, fun a b => dist a b,
        build 1 (fun _ => 0) (ddOf (fun a b : ℂ => dist a b) egItems)
          (List.range egItems.length)⟩ : VPHandle ℂ ℝ) egNeedle
      = (0, Real.sqrt 2) :=
  ⟨rfl, C2_concrete_scenario 1 (fun _ => 0) rfl⟩

/-- C5: queries on trees built from the same items agree whatever leaf size
and vantage selection (hence tree shape and branch visit order) were used,
so repeated queries with the same needle and k always produce the same
output; and when two candidates tie exactly on distance, the one with the
smaller item index is preferred in the returned result. -/
theorem C5_deterministic_tie_break [Inhabited α] (L1 L2 : ℕ) (sel1 sel2 : List ℕ → ℕ)
    (dist : α → α → D) (items : List α) (q : α) (k : ℕ)
    (hsym : ∀ a b : α, dist a b = dist b a)
    (htri : ∀ a b c : α, dist a c ≤ dist a b + dist b c)
    {h1 h2 : VPHandle α D} (hinit1 : vp_init L1 sel1 dist items = .ok h1)
    (hinit2 : vp_init L2 sel2 dist items = .ok h2) :
    find_nearest_k h1 q k = find_nearest_k h2 q k ∧
    (∀ i j : ℕ, i < j → j < items.length →
      dqOf dist items q i = dqOf dist items q j →
      (j, dqOf dist items q j) ∈ find_nearest_k h1 q k →
      (i, dqOf dist items q i) ∈ find_nearest_k h1 q k) := by
  have hk1 := find_nearest_k_eq_brute L1 sel1 dist items q k hsym htri hinit1
  have hk2 := find_nearest_k_eq_brute L2 sel2 dist items q k hsym htri hinit2
  refine ⟨hk1.trans hk2.symm, ?_⟩
  intro i j hij hj hd hmem
  rw [hk1] at hmem ⊢
  have hx : ((i : ℕ), dqOf dist items q i) ∈ sortPairs (linearScan dist items q) := by
    unfold sortPairs
    rw [(List.perm_insertionSort lexLe _).mem_iff]
    exact List.mem_map.mpr ⟨i, List.mem_range.mpr (lt_trans hij hj), rfl⟩
  have hxy : lexLe ((i : ℕ), dqOf dist items q i) (j, dqOf dist items q j) :=
    Or.inr ⟨hd, le_of_lt hij⟩
  exact mem_take_sorted (sorted_sortPairs _) k hx hmem hxy

/-- Witness for C5: two builds with different leaf sizes and selections agree
on the concrete integer data, and on the tie (items 0 and 2 both at distance
1 from the needle) the smaller index 0 is also kept. -/
theorem C5_witness :
    vp_init 1 intSel intDist intItems = .ok hWit ∧
    vp_init 0 intSel2 intDist intItems = .ok hWit2 ∧
    find_nearest_k hWit 2 1 = find_nearest_k hWit2 2 1 ∧
    ((2 : ℕ), dqOf intDist intItems 2 2) ∈ find_nearest_k hWit 2 2 ∧
    ((0 : ℕ), dqOf intDist intItems 2 0) ∈ find_nearest_k hWit 2 2 :=
  ⟨hWit_init, hWit2_init,
    (C5_deterministic_tie_break 1 0 intSel intSel2 intDist intItems 2 1
      intDist_symm intDist_tri hWit_init hWit2_init).1,
    by decide,
    (C5_deterministic_tie_break 1 0 intSel intSel2 intDist intItems 2 2
      intDist_symm intDist_tri hWit_init hWit2_init).2 0 2 (by decide) (by decide)
      (by decide) (by decide)⟩

/-- C6 is refuted as stated: the set of returned (index, distance) pairs is
not invariant under permuting the input, because indices refer to positions
in each build's own input order.  With items [1, 2, 9], the permutation
[2, 1, 9], needle 0 and k = 2, one build returns the pair set
{(0, 1), (1, 2)} and the other {(1, 1), (0, 2)}. -/
theorem C6_counterexample :
    cexItemsP.Perm cexItems ∧
    ¬ (find_nearest_k hCex 0 2).toFinset = (find_nearest_k hCexP 0 2).toFinset :=
  ⟨by decide, by decide⟩

/-- C6 (amended): building the tree from any permutation of the item set
yields, for every query and every k, the same ascending list of returned
distances (hence the same multiset of distances); the indices attached to
those distances refer to positions in each build's own input ordering and
need not coincide. -/
theorem C6_permutation_distances [Inhabited α] (L1 L2 : ℕ) (sel1 sel2 : List ℕ → ℕ)
    (dist : α → α → D) (items itemsP : List α) (q : α) (k : ℕ)
    (hsym : ∀ a b : α, dist a b = dist b a)
    (htri : ∀ a b c : α, dist a c ≤ dist a b + dist b c)
    (hperm : itemsP.Perm items)
    {h1 h2 : VPHandle α D} (hinit1 : vp_init L1 sel1 dist items = .ok h1)
    (hinit2 : vp_init L2 sel2 dist itemsP = .ok h2) :
    (find_nearest_k h1 q k).map Prod.snd = (find_nearest_k h2 q k).map Prod.snd := by
  rw [find_nearest_k_eq_brute L1 sel1 dist items q k hsym htri hinit1,
    find_nearest_k_eq_brute L2 sel2 dist itemsP q k hsym htri hinit2]
  unfold bruteForceK
  rw [map_snd_selK, map_snd_selK, map_snd_linearScan, map_snd_linearScan,
    sortD_perm (hperm.map (fun a => dist a q))]

/-- Witness for C6: the permuted integer build returns the same distance
list [1, 1] as the original. -/
theorem C6_witness :
    intItemsP.Perm intItems ∧
    vp_init 1 intSel intDist intItems = .ok hWit ∧
    vp_init 1 intSel intDist intItemsP = .ok hWitP ∧
    (find_nearest_k hWit 2 2).map Prod.snd = (find_nearest_k hWitP 2 2).map Prod.snd ∧
    (find_nearest_k hWit 2 2).map Prod.snd = [1, 1] :=
  ⟨by decide, hWit_init, hWitP_init,
    C6_permutation_distances 1 1 intSel intSel intDist intItems intItemsP 2 2
      intDist_symm intDist_tri (by decide) hWit_init hWitP_init,
    by decide⟩

/-- C7: after construction no operation mutates the tree: the state-threaded
query hands back the handle — items, distance callback, root node with every
threshold — exactly as it received it, while computing the same result as
find_nearest_k. -/
theorem C7_query_immutable [Inhabited α] (h : VPHandle α D) (q : α) (k : ℕ) :
    (find_nearest_k_st h q k).2 = h ∧
      (find_nearest_k_st h q k).1 = find_nearest_k h q k := by
  rw [find_nearest_k_st_eq]
  exact ⟨rfl, rfl⟩

/-- C8 is refuted as stated: in a concrete build the distance callback is
invoked, and no invocation receives a context argument — the argument list of
every call is the two item pointers only, as declared in src/vp.h line 4. -/
theorem C8_counterexample :
    ¬ (∀ c ∈ (buildFLog 1 intSel intDist intItems intItems.length
        (List.range intItems.length)).2,
      CallArg.ctx () ∈ cCallArgs Unit c) := by
  decide

/-- C8 (amended): every distance computation performed during build and
during query receives exactly the two items being compared as its arguments;
the callback type of src/vp.h line 4 has no context parameter, so no call
receives a context in addition. -/
theorem C8_callback_two_args [Inhabited α] (C : Type) (L : ℕ) (sel : List ℕ → ℕ)
    (dist : α → α → D) (items : List α) (needle : α) (k : ℕ) (fuel : ℕ) (l : List ℕ)
    (t : VPNode D) (rs : List (ℕ × D)) :
    (∀ c ∈ (buildFLog L sel dist items fuel l).2,
      cCallArgs C c = [CallArg.item c.1, CallArg.item c.2] ∧
        ∀ u : C, CallArg.ctx u ∉ cCallArgs C c) ∧
    (∀ c ∈ (searchGoLog k dist items needle t rs).2,
      cCallArgs C c = [CallArg.item c.1, CallArg.item c.2] ∧
        ∀ u : C, CallArg.ctx u ∉ cCallArgs C c) := by
  constructor <;>
  · intro c _
    refine ⟨rfl, ?_⟩
    intro u hu
    simp [cCallArgs] at hu

/-- Witness for C8: the concrete build log contains the call (3, 10), whose
argument list is the two items. -/
theorem C8_witness :
    ((3 : ℤ), (10 : ℤ)) ∈ (buildFLog 1 intSel intDist intItems intItems.length
        (List.range intItems.length)).2 ∧
    cCallArgs Unit ((3 : ℤ), (10 : ℤ)) = [CallArg.item 3, CallArg.item 10] :=
  ⟨by decide,
    ((C8_callback_two_args Unit 1 intSel intDist intItems 2 1 intItems.length
      (List.range intItems.length) hWit.root []).1 _ (by decide)).1⟩

/-- C9: for every tree built by vp_init from n ≥ 1 items and every needle,
the index returned by vp_find_nearest is smaller than n, hence always a safe
index into the item_pointers array the caller passed to vp_init; no
assumption on the distance function is needed. -/
theorem C9_index_in_range [Inhabited α] (L : ℕ) (sel : List ℕ → ℕ)
    (dist : α → α → D) (items : List α) (q : α)
    {h : VPHandle α D} (hinit : vp_init L sel dist items = .ok h) :
    vp_find_nearest h q < items.length := by
  obtain ⟨hi, hdist, hroot, hn⟩ := vp_init_ok hinit
  have hnil : indicesOf h.root ≠ [] := by
    intro hc
    have hlen := (build_perm L sel (ddOf dist items) (List.range items.length)).length_eq
    rw [← hroot, hc, List.length_range] at hlen
    exact hn hlen.symm
  have hne : find_nearest_k h q 1 ≠ [] :=
    searchGo_ne_nil le_rfl (dqOf h.dist h.items q) h.root [] (Or.inl hnil)
  cases hfk : find_nearest_k h q 1 with
  | nil => exact absurd hfk hne
  | cons p t2 =>
    have hp : p ∈ find_nearest_k h q 1 := by
      rw [hfk]
      exact List.mem_cons_self _ _
    rcases mem_searchGo (dqOf h.dist h.items q) h.root [] p hp with ⟨i, hi2, hpe⟩ | hff
    · have hir : i ∈ List.range items.length := by
        rw [hroot] at hi2
        exact (build_perm L sel (ddOf dist items) (List.range items.length)).subset hi2
      show (find_nearest h q).1 < items.length
      unfold find_nearest
      rw [hfk]
      show p.1 < items.length
      rw [hpe]
      exact List.mem_range.mp hir
    · cases hff

/-- Witness for C9: on the concrete integer data the returned index is 0,
inside the range of the three items. -/
theorem C9_witness :
    vp_init 1 intSel intDist intItems = .ok hWit ∧
    vp_find_nearest hWit 2 < intItems.length ∧
    vp_find_nearest hWit 2 = 0 :=
  ⟨hWit_init, C9_index_in_range 1 intSel intDist intItems 2 hWit_init, by decide⟩

/-- C10: every invocation of the caller-supplied distance callback, during
both vp_init and the query, receives as its two arguments only items of the
array given to vp_init or the needle given to the query; the instrumented
build and traversal compute exactly the tree and result of the plain ones,
so their logs account for all invocations. -/
theorem C10_callback_args_from_inputs [Inhabited α] (L : ℕ) (sel : List ℕ → ℕ)
    (dist : α → α → D) (items : List α) (needle : α) (k : ℕ)
    {h : VPHandle α D} (hinit : vp_init L sel dist items = .ok h) :
    (buildFLog L sel dist items items.length (List.range items.length)).1 = h.root ∧
    (∀ c ∈ (buildFLog L sel dist items items.length (List.range items.length)).2,
      c.1 ∈ items ∧ c.2 ∈ items) ∧
    (searchGoLog k dist items needle h.root []).1 = find_nearest_k h needle k ∧
    (∀ c ∈ (searchGoLog k dist items needle h.root []).2,
      (c.1 ∈ items ∨ c.1 = needle) ∧ (c.2 ∈ items ∨ c.2 = needle)) := by
  obtain ⟨hi, hdist, hroot, hn⟩ := vp_init_ok hinit
  refine ⟨?_, ?_, ?_, ?_⟩
  · rw [buildFLog_fst, hroot]
    unfold build
    rw [List.length_range]
  · intro c hc
    exact buildFLog_calls L sel dist items items.length (List.range items.length)
      (fun i hi2 => List.mem_range.mp hi2) c hc
  · unfold find_nearest_k
    rw [searchGoLog_fst, hi, hdist]
  · intro c hc
    have hb : ∀ i ∈ indicesOf h.root, i < items.length := by
      intro i hi2
      rw [hroot] at hi2
      exact List.mem_range.mp
        ((build_perm L sel (ddOf dist items) (List.range items.length)).subset hi2)
    have hc2 := searchGoLog_calls k dist items needle h.root [] hb c hc
    exact ⟨Or.inl hc2.1, Or.inr hc2.2⟩

/-- Witness for C10: on the concrete integer data vp_init succeeds, the logs
match the plain run, and the call (3, 10) indeed pairs two stored items. -/
theorem C10_witness :
    vp_init 1 intSel intDist intItems = .ok hWit ∧
    ((3 : ℤ), (10 : ℤ)) ∈ (buildFLog 1 intSel intDist intItems intItems.length
        (List.range intItems.length)).2 ∧
    (buildFLog 1 intSel intDist intItems intItems.length
        (List.range intItems.length)).1 = hWit.root ∧
    (∀ c ∈ (buildFLog 1 intSel intDist intItems intItems.length
        (List.range intItems.length)).2, c.1 ∈ intItems ∧ c.2 ∈ intItems) :=
  ⟨hWit_init, by decide,
    (C10_callback_args_from_inputs 1 intSel intDist intItems 2 1 hWit_init).1,
    (C10_callback_args_from_inputs 1 intSel intDist intItems 2 1 hWit_init).2.1⟩

end VP
